import Mathlib

/-!
Verification of the client-side runtime of the double-pendulum visualizer
(`static/js/app.js`).  Each section shallowly embeds one part of the source:
the connection monitor, the store notification labels, the energy display,
the trail ring buffer, the observable store (`setState` / `updateState`),
the listener set, and the debounce machinery of the command dispatcher.
JavaScript numbers are modelled as exact rationals (the claims under
consideration are about control flow and bookkeeping, not rounding), and
JavaScript objects that are mutated through shared references are modelled
with an explicit heap where object identity matters.
-/

namespace DoublePendulum

/-! ### Connection monitor

Source lines 51-82 (initial state), 166-212 (`pollState`) and 757-766
(`handleConnectionError`).  The relevant fields of the global state are
`isConnected` and `connectionRetries`. -/

structure ConnState where
  isConnected : Bool
  connectionRetries : Nat
  deriving DecidableEq, Repr

/-- Source line 84: `const maxRetries = 5;`. -/
def maxRetries : Nat := 5

/-- Source lines 51-82: the `StateManager` is created with
`isConnected: false, connectionRetries: 0`. -/
def initialConnState : ConnState := ⟨false, 0⟩

/-- Source lines 757-766 (`handleConnectionError`): increment the retry
counter; if the incremented counter has reached `maxRetries` and the state
captured at entry was connected, drop to disconnected. -/
def handleConnectionError (s : ConnState) : ConnState :=
  let newRetries := s.connectionRetries + 1
  if maxRetries ≤ newRetries ∧ s.isConnected = true then
    ⟨false, newRetries⟩
  else
    ⟨s.isConnected, newRetries⟩

/-- Source lines 196-205 (`pollState`, success path): the connection fields
are touched only when the state read at the start of the poll was
disconnected, in which case `isConnected` becomes true and
`connectionRetries` is reset to 0 (tag `connection_recovered`).  A
successful poll while already connected leaves both fields unchanged. -/
def pollSuccess (s : ConnState) : ConnState :=
  if s.isConnected = false then ⟨true, 0⟩ else s

inductive Poll where
  | ok
  | fail
  deriving DecidableEq, Repr

/-- One poll cycle's effect on the connection fields: the success path of
`pollState`, or `handleConnectionError` on a transport error / non-ok
response. -/
def pollStep (s : ConnState) : Poll → ConnState
  | .ok => pollSuccess s
  | .fail => handleConnectionError s

/-- Folding a sequence of poll outcomes through the connection monitor. -/
def runPolls (s : ConnState) (ps : List Poll) : ConnState :=
  ps.foldl pollStep s

/-! ### Store notification labels (command dispatcher vs display binder)

Source line 31 (`updateState` notifies with source `update:${path}`),
lines 100-105 (the UI subscriber runs `updateAllDisplays()` whenever the
source is not `"local_update"`), and lines 429/492 (the dispatcher calls
`updateState` on `parameters.${param}` / `conditions.${condition}`). -/

/-- Source line 31: the source label attached to an `updateState` call. -/
def updateSourceLabel (path : String) : String := "update:" ++ path

/-- Source line 429: the notification label produced when the dispatcher
writes a parameter edit through `updateState`. -/
def dispatcherParamSource (param : String) : String :=
  updateSourceLabel ("parameters." ++ param)

/-- Source lines 100-105: the display-binder subscriber re-projects the DOM
(`updateAllDisplays`) exactly when the notification source differs from
`"local_update"`. -/
def binderReprojects (source : String) : Bool :=
  source ≠ "local_update"

/-! ### Energy display

Source lines 238-275 (`updateEnergyDisplay`).  The division
`(total - initialEnergy) / initialEnergy` is performed on the snapshot read
at entry, before the `energy_init` capture is merged, so at the capture
instant `initialEnergy` is still `null`, which coerces to 0; JavaScript
then yields `Infinity` (or `NaN` for a zero numerator).  `JsNum` records
the outcome of `Math.abs(...)` on that expression. -/

inductive JsNum where
  | fin (q : ℚ)
  | inf
  | nan
  deriving DecidableEq, Repr

/-- Source lines 260-263: `Math.abs(((total - E0) / E0) * 100)` where `E0`
is the `initialEnergy` of the snapshot read at entry (`null` coerces to 0;
division by 0 gives `±Infinity`, or `NaN` when the numerator is also 0). -/
def conservationError (initialEnergy : Option ℚ) (total : ℚ) : JsNum :=
  match initialEnergy with
  | none => if total = 0 then .nan else .inf
  | some e =>
      if e = 0 then (if total = 0 then .nan else .inf)
      else .fin |((total - e) / e) * 100|

/-- Source lines 253-263: one `updateEnergyDisplay` pass, returning the
`initialEnergy` after the lazy capture together with the conservation
error that the pass leaves in the `energy-error` element.  The error is
computed from the pre-capture snapshot (the local `state` binding is not
refreshed after the `energy_init` `setState`). -/
def updateEnergyDisplayStep (initialEnergy : Option ℚ) (total : ℚ) :
    Option ℚ × JsNum :=
  (match initialEnergy with
   | none => some total
   | some e => some e,
   conservationError initialEnergy total)

/-! ### Trail ring buffer

Source line 85 (`const MAX_TRAIL = 300;`) and lines 804-809 (`animate`):
each frame with coordinates available and the simulation unpaused pushes
the current body position and then shifts the oldest entry off the front
when the buffer has grown past `MAX_TRAIL`.  Both `trail1` and `trail2`
use exactly this step. -/

def MAX_TRAIL : Nat := 300

structure TrailPoint where
  x : ℚ
  y : ℚ
  deriving DecidableEq, Repr

/-- Source lines 806-809: `trail.push(p); if (trail.length > MAX_TRAIL)
trail.shift();`. -/
def trailStep (trail : List TrailPoint) (p : TrailPoint) : List TrailPoint :=
  let t := trail ++ [p]
  if MAX_TRAIL < t.length then t.tail else t

/-- Trails start empty (source lines 88-89) and are advanced by `trailStep`
on every animation frame that samples a position. -/
def runTrail (ps : List TrailPoint) : List TrailPoint :=
  ps.foldl trailStep []

/-! ### Association-list primitives shared by the object models

JavaScript objects are modelled as insertion-ordered association lists.
Property read returns the first binding; property write replaces an
existing binding in place and otherwise appends (matching JS insertion
order). -/

def getEntry {α : Type} : List (String × α) → String → Option α
  | [], _ => none
  | (k', v) :: rest, k => if k' = k then some v else getEntry rest k

def setEntry {α : Type} : List (String × α) → String → α → List (String × α)
  | [], k, v => [(k, v)]
  | (k', v') :: rest, k, v =>
      if k' = k then (k', v) :: rest else (k', v') :: setEntry rest k v

/-! ### Observable store, value view (`setState` / `updateState`)

Source lines 14-32.  `setState` spreads the patch over the current state
(`{...this.state, ...newState}`); `updateState` shallow-copies the state,
walks the dotted path creating `{}` at falsy intermediate slots, assigns
the leaf, and commits through `setState`.  Here state values are compared
structurally; the reference-sharing aspect of `updateState` is modelled
separately with an explicit heap below. -/

inductive Val where
  | num (q : ℚ)
  | bool (b : Bool)
  | null
  | obj (fields : List (String × Val))
  deriving Repr

/-- Truthiness of a JavaScript property read (`!current[keys[i]]` on source
line 26): absent and `null` and `0` and `false` are falsy, objects and
other numbers are truthy. -/
def truthyVal : Option Val → Bool
  | some (.num q) => decide (q ≠ 0)
  | some (.bool b) => b
  | some .null => false
  | some (.obj _) => true
  | none => false

/-- Source lines 20-31, observable effect of the path walk on a value: at
the leaf the property is assigned (silently discarded on a primitive, as
in sloppy-mode JS); at an intermediate key a falsy slot is replaced by a
fresh `{}` before descending, while a truthy non-object slot makes the
rest of the walk a no-op on the tree (property writes on primitives are
discarded and the walk's further reads see `undefined`). -/
def assignPath (cur : Val) : List String → Val → Val
  | [], _ => cur
  | [k], v =>
      match cur with
      | .obj fs => .obj (setEntry fs k v)
      | _ => cur
  | k :: rest, v =>
      match cur with
      | .obj fs =>
          let c := getEntry fs k
          let child := if truthyVal c then c.getD .null else .obj []
          .obj (setEntry fs k (assignPath child rest v))
      | _ => cur

abbrev StoreFields := List (String × Val)

/-- Source lines 14-18 (`setState`): `this.state = {...this.state,
...newState}` — every top-level key of the patch replaces or extends the
current bindings. -/
def jsSetState (s : StoreFields) (patch : StoreFields) : StoreFields :=
  patch.foldl (fun acc kv => setEntry acc kv.1 kv.2) s

/-- Source lines 20-32 (`updateState`): the observable top-level bindings
after the copy, the path walk, and the `setState` commit.  (The commit's
second spread merges a full copy of the state, so its bindings are exactly
the walked copy's bindings.) -/
def updateStateFields (s : StoreFields) (keys : List String) (v : Val) :
    StoreFields :=
  match assignPath (.obj s) keys v with
  | .obj fs => fs
  | _ => s

inductive StoreOp where
  | merge (patch : StoreFields)
  | setPath (keys : List String) (v : Val)

def applyOp (s : StoreFields) : StoreOp → StoreFields
  | .merge patch => jsSetState s patch
  | .setPath keys v => updateStateFields s keys v

def applyOps (s : StoreFields) (ops : List StoreOp) : StoreFields :=
  ops.foldl applyOp s

/-- The top-level fields touched by a store operation: every key of a
`setState` patch, and the head segment of an `updateState` path. -/
def touchedFields : StoreOp → List String
  | .merge patch => patch.map Prod.fst
  | .setPath keys _ => keys.take 1

/-! ### Store listeners

Source lines 34-47.  `subscribe` adds the listener to a JS `Set` (adding
an already-present element is a no-op, iteration is in insertion order);
`notifyListeners` iterates the set, wrapping each call in `try`/`catch` so
that a throwing listener is logged (`console.error`) and the iteration
continues.  A listener is abstracted to an identity and whether its body
throws on this notification. -/

structure Listener where
  id : Nat
  raises : Bool
  deriving DecidableEq, Repr

/-- Source lines 34-37: `this.listeners.add(listener)` — a `Set` keeps the
first insertion and ignores re-registration. -/
def subscribeOne (ls : List Listener) (l : Listener) : List Listener :=
  if l ∈ ls then ls else ls ++ [l]

def subscribeAll (regs : List Listener) : List Listener :=
  regs.foldl subscribeOne []

inductive Outcome where
  | completed
  | raised
  deriving DecidableEq, Repr

def invokeListener (l : Listener) : Outcome :=
  if l.raises then .raised else .completed

/-- Source lines 39-47: the invocation trace (listener identity and
outcome, in iteration order) and the log of caught listener errors.  The
`try`/`catch` around each call is what lets the fold continue past a
raised outcome. -/
def notifyListeners : List Listener → List (Nat × Outcome) × List Nat
  | [] => ([], [])
  | l :: rest =>
      let o := invokeListener l
      let r := notifyListeners rest
      ((l.id, o) :: r.1,
       (match o with | .raised => [l.id] | .completed => []) ++ r.2)

/-! ### Observable store, reference view (`updateState` and `previous`)

Source lines 20-32 and 39-47 again, now with object identity: the shallow
copy `{...this.state}` shares every nested object with the previous state
object, and the path walk mutates those shared objects in place, so the
`prevState` passed to listeners is affected by the leaf assignment.  The
heap holds the objects; values embed references as indices. -/

inductive HVal where
  | num (q : ℚ)
  | bool (b : Bool)
  | null
  | ref (r : Nat)
  deriving DecidableEq, Repr

abbrev JsObj := List (String × HVal)

structure SHeap where
  objs : List JsObj
  deriving Repr

def getF (h : SHeap) (o : Nat) (k : String) : Option HVal :=
  getEntry (h.objs.getD o []) k

def setF (h : SHeap) (o : Nat) (k : String) (v : HVal) : SHeap :=
  ⟨h.objs.set o (setEntry (h.objs.getD o []) k v)⟩

/-- The walk cursor: an object reference, a primitive (writes discarded),
or `undefined` (reached after walking past a primitive; a further access
would throw, leaving the heap as it is). -/
inductive Cur where
  | obj (r : Nat)
  | prim
  | undef

/-- Allocate `{}` into slot `k` of object `r` (source line 26,
`current[keys[i]] = {}`) and move the cursor into it. -/
def allocInto (h : SHeap) (r : Nat) (k : String) : SHeap × Cur :=
  let o' := h.objs.length
  (setF ⟨h.objs ++ [[]]⟩ r k (.ref o'), .obj o')

/-- Source lines 25-28, one intermediate iteration: replace a falsy slot
with a fresh object, then step the cursor into the slot's value. -/
def stepKey (h : SHeap) (c : Cur) (k : String) : SHeap × Cur :=
  match c with
  | .obj r =>
      match getF h r k with
      | some (.ref r') => (h, .obj r')
      | some (.num q) => if q = 0 then allocInto h r k else (h, .prim)
      | some (.bool b) => if b then (h, .prim) else allocInto h r k
      | _ => allocInto h r k
  | .prim => (h, .undef)
  | .undef => (h, .undef)

/-- Source line 29, the leaf assignment
`current[keys[keys.length - 1]] = value`: a real write on an object
cursor, a silent discard on a primitive, no heap effect on `undefined`
(the thrown `TypeError` aborts before any further mutation). -/
def leafAssign (h : SHeap) (c : Cur) (k : String) (v : HVal) : SHeap :=
  match c with
  | .obj r => setF h r k v
  | _ => h

def walkKeys (h : SHeap) (c : Cur) : List String → HVal → SHeap
  | [], _ => h
  | [k], v => leafAssign h c k v
  | k :: rest, v =>
      let p := stepKey h c k
      walkKeys p.1 p.2 rest v

/-- Source lines 20-32 on the heap: shallow-copy the state object
(`{...this.state}`, sharing nested references), walk the path from the
copy, and return the heap together with the index of the copy, whose
bindings are those of the committed next state. -/
def jsUpdateStateHeap (h : SHeap) (top : Nat) (keys : List String)
    (v : HVal) : SHeap × Nat :=
  let c := h.objs.length
  (walkKeys ⟨h.objs ++ [h.objs.getD top []]⟩ (.obj c) keys v, c)

/-- Reading a dotted path through the heap, following references. -/
def lookupPathH (h : SHeap) (o : Nat) : List String → Option HVal
  | [] => none
  | [k] => getF h o k
  | k :: rest =>
      match getF h o k with
      | some (.ref r) => lookupPathH h r rest
      | _ => none

/-- The intermediate slots of the path, read from object `o`, are all
references to in-bounds objects that do not revisit `o`, `seen`, or each
other (the situation of every `updateState` call in the source, whose
paths are `parameters.x` / `conditions.x` over container objects). -/
def refChainD (h : SHeap) (seen : List Nat) (o : Nat) : List String → Prop
  | [] => True
  | [_] => True
  | k :: rest =>
      ∃ r, getF h o k = some (.ref r) ∧ r < h.objs.length ∧
        r ∉ o :: seen ∧ refChainD h (o :: seen) r rest

/-! ### Command dispatcher debounce machinery

Source lines 409-467 (`updateParameter`) and 469-530
(`updateInitialCondition`); both share the debounce logic verbatim over
the single `state.updateTimeouts` object (initially `{}`, source line 59):
read the current timeouts object, `clearTimeout` the slot's handle if
truthy, store a fresh timer handle into the slot by in-place mutation, and
let the timer's callback send one request with the value captured at edit
time and then commit `{...timeouts, [key]: null}` — a spread of the object
captured at edit time — as the new timeouts object.  Object identity is
again explicit: `heap` holds timeouts objects, `store` is the index of the
current `state.updateTimeouts`, and timer handles are the positive
integers returned by `setTimeout`. -/

inductive TStatus where
  | live
  | fired
  | canceled
  deriving DecidableEq, Repr

structure TimerInfo where
  key : String
  value : ℚ
  captured : Nat
  status : TStatus
  deriving DecidableEq, Repr

abbrev TimerSlots := List (String × Option Nat)

structure DispatchWorld where
  heap : List TimerSlots
  store : Nat
  timers : List TimerInfo
  sent : List (String × ℚ)
  deriving Repr

/-- Startup: `updateTimeouts: {}` (source line 59), no timers, nothing
sent. -/
def initialWorld : DispatchWorld := ⟨[[]], 0, [], []⟩

/-- Truthiness of `timeouts[param]` (source lines 433/496): absent and
`null` are falsy, and so would be the number 0 — browser timer handles are
positive, so handle 0 never arises, but the check is kept faithful. -/
def slotId : Option (Option Nat) → Option Nat
  | some (some t) => if t = 0 then none else some t
  | _ => none

/-- `clearTimeout(handle)` (source lines 434/497): cancels a live timer,
and is a no-op on a handle whose timer already fired or was canceled. -/
def clearTimeoutW (w : DispatchWorld) (t : Nat) : DispatchWorld :=
  match w.timers.get? (t - 1) with
  | some ti =>
      if ti.status = .live then
        { w with timers := w.timers.set (t - 1) { ti with status := .canceled } }
      else w
  | none => w

/-- Source lines 432-437 / 495-500, the debounce part of one input event:
clear the handle found in the current timeouts object's slot, then
`timeouts[key] = setTimeout(...)` — an in-place mutation of that object —
with a callback capturing the key, the parsed value, and the timeouts
object reference. -/
def editField (w : DispatchWorld) (p : String) (v : ℚ) : DispatchWorld :=
  let m := w.heap.getD w.store []
  let w1 := match slotId (getEntry m p) with
            | some t => clearTimeoutW w t
            | none => w
  let tid := w1.timers.length + 1
  { w1 with
      heap := w1.heap.set w1.store (setEntry m p (some tid)),
      timers := w1.timers ++ [⟨p, v, w1.store, .live⟩] }

/-- Source lines 437-466 / 500-529, the timer callback (only a live timer
can fire): send the captured `(key, value)` request, then commit
`{...timeouts, [key]: null}` — spreading the object reference captured at
edit time, read at fire time — as the new `state.updateTimeouts`. -/
def fireTimer (w : DispatchWorld) (t : Nat) : DispatchWorld :=
  match w.timers.get? (t - 1) with
  | some ti =>
      if ti.status = .live then
        { heap := w.heap ++ [setEntry (w.heap.getD ti.captured []) ti.key none],
          store := w.heap.length,
          timers := w.timers.set (t - 1) { ti with status := .fired },
          sent := w.sent ++ [(ti.key, ti.value)] }
      else w
  | none => w

inductive DispatchEv where
  | edit (p : String) (v : ℚ)
  | fire (t : Nat)

def dispatchStep (w : DispatchWorld) : DispatchEv → DispatchWorld
  | .edit p v => editField w p v
  | .fire t => fireTimer w t

def runDispatch (w : DispatchWorld) (es : List DispatchEv) : DispatchWorld :=
  es.foldl dispatchStep w

/-- A burst of input events inside one debounce window: edits only, no
timer fires in between. -/
def runEdits (es : List (String × ℚ)) : DispatchWorld :=
  es.foldl (fun w e => editField w e.1 e.2) initialWorld

/-- The value of the last edit to a given field in an event burst. -/
def lastVal : List (String × ℚ) → String → Option ℚ
  | [], _ => none
  | (p, v) :: rest, f =>
      match lastVal rest f with
      | some u => some u
      | none => if p = f then some v else none

def liveIdsAux (n : Nat) (f : String) : List TimerInfo → List Nat
  | [] => []
  | ti :: rest =>
      (if ti.key = f ∧ ti.status = .live then [n] else []) ++
        liveIdsAux (n + 1) f rest

/-- The handles of the timers for a field that are live (pending: not yet
fired, not canceled). -/
def liveIdsFor (w : DispatchWorld) (f : String) : List Nat :=
  liveIdsAux 1 f w.timers

/-- Invariant of an edit-only burst from startup: nothing sent yet, one
timeouts object, and for every field either it was never edited (its slot
is absent and no timer carries it) or its slot holds the handle of the one
live timer for it, carrying the value of its last edit. -/
def EditInv (es : List (String × ℚ)) (w : DispatchWorld) : Prop :=
  w.sent = [] ∧ w.store = 0 ∧ w.heap.length = 1 ∧
  ∀ f : String,
    match lastVal es f with
    | none =>
        getEntry (w.heap.getD 0 []) f = none ∧
        (∀ j ti, w.timers.get? j = some ti → ti.key ≠ f)
    | some v =>
        ∃ t, getEntry (w.heap.getD 0 []) f = some (some t) ∧
          1 ≤ t ∧ t ≤ w.timers.length ∧
          w.timers.get? (t - 1) = some ⟨f, v, 0, .live⟩ ∧
          (∀ j ti, w.timers.get? j = some ti → ti.key = f →
            ti.status = .live → j = t - 1)

/-! ## Connection monitor theorems -/

lemma runPolls_fail_disconnected (k r : Nat) :
    runPolls ⟨false, r⟩ (List.replicate k .fail) = ⟨false, r + k⟩ := by
  induction k generalizing r with
  | zero => rfl
  | succ k ih =>
      have hstep : pollStep ⟨false, r⟩ .fail = ⟨false, r + 1⟩ := by
        simp [pollStep, handleConnectionError]
      calc runPolls ⟨false, r⟩ (List.replicate (k + 1) .fail)
          = runPolls ⟨false, r + 1⟩ (List.replicate k .fail) := by
            simp [runPolls, List.replicate_succ, hstep]
        _ = ⟨false, r + 1 + k⟩ := ih (r + 1)
        _ = ⟨false, r + (k + 1)⟩ := by
            congr 1
            omega

lemma runPolls_fail_connected (k r : Nat) (h : r < maxRetries) :
    runPolls ⟨true, r⟩ (List.replicate k .fail) =
      ⟨decide (r + k < maxRetries), r + k⟩ := by
  induction k generalizing r with
  | zero =>
      simp [runPolls, h]
  | succ k ih =>
      have harith : r + 1 + k = r + (k + 1) := by omega
      by_cases hr : r + 1 < maxRetries
      · have hstep : pollStep ⟨true, r⟩ .fail = ⟨true, r + 1⟩ := by
          simp [pollStep, handleConnectionError]
          all_goals omega
        calc runPolls ⟨true, r⟩ (List.replicate (k + 1) .fail)
            = runPolls ⟨true, r + 1⟩ (List.replicate k .fail) := by
              simp [runPolls, List.replicate_succ, hstep]
          _ = ⟨decide (r + 1 + k < maxRetries), r + 1 + k⟩ := ih (r + 1) hr
          _ = ⟨decide (r + (k + 1) < maxRetries), r + (k + 1)⟩ := by
              rw [harith]
      · have hstep : pollStep ⟨true, r⟩ .fail = ⟨false, r + 1⟩ := by
          simp [pollStep, handleConnectionError]
          all_goals omega
        have hdec : decide (r + (k + 1) < maxRetries) = false := by
          simp only [decide_eq_false_iff_not]
          omega
        calc runPolls ⟨true, r⟩ (List.replicate (k + 1) .fail)
            = runPolls ⟨false, r + 1⟩ (List.replicate k .fail) := by
              simp [runPolls, List.replicate_succ, hstep]
          _ = ⟨false, r + 1 + k⟩ := runPolls_fail_disconnected k (r + 1)
          _ = ⟨decide (r + (k + 1) < maxRetries), r + (k + 1)⟩ := by
              rw [hdec, harith]

/-- C1 (amended): from a freshly connected state (failure counter 0),
`k` consecutive failed polls leave the monitor connected with counter `k`
for `k < 5` and disconnected as of the fifth; a single successful poll
from any disconnected state reconnects and resets the counter to 0; but a
successful poll while connected leaves the failure counter untouched, so
the counter only resets on the Disconnected→Connected transition. -/
theorem c1_hysteresis_amended :
    (∀ k : Nat, runPolls ⟨true, 0⟩ (List.replicate k .fail) =
      ⟨decide (k < maxRetries), k⟩) ∧
    (∀ r : Nat, pollStep ⟨false, r⟩ .ok = ⟨true, 0⟩) ∧
    (∀ r : Nat, pollStep ⟨true, r⟩ .ok = ⟨true, r⟩) := by
  refine ⟨fun k => ?_, fun r => ?_, fun r => ?_⟩
  · have := runPolls_fail_connected k 0 (by simp [maxRetries])
    simpa using this
  · rfl
  · rfl

/-- C1 (counterexample to the claim as stated): a successful poll while
connected does not reset the consecutive-failure counter, and the outcome
sequence fail, fail, fail, fail, ok, fail — whose longest run of
consecutive failures is 4 — still ends disconnected. -/
theorem c1_counterexample :
    (pollStep ⟨true, 4⟩ .ok).connectionRetries ≠ 0 ∧
    (runPolls ⟨true, 0⟩
      [.fail, .fail, .fail, .fail, .ok, .fail]).isConnected = false := by
  decide

/-! ## Notification source-label theorems -/

/-- C2 (code bug): a dispatcher edit of parameter `g` notifies with source
label `update:parameters.g`, never `local_update`; the display binder's
guard therefore passes and the DOM is re-projected for the user's own
edit, while only the label `local_update` itself would be skipped. -/
theorem c2_source_label_bug :
    dispatcherParamSource "g" = "update:parameters.g" ∧
    binderReprojects (dispatcherParamSource "g") = true ∧
    binderReprojects "local_update" = false := by
  refine ⟨rfl, by decide, by decide⟩

/-! ## Energy display theorems -/

/-- C3 (code bug): at the instant `initialEnergy` is captured (first energy
reading, total 100), the conservation error is computed against the stale
pre-capture snapshot, dividing by a null baseline: the pass stores the
baseline 100 but displays Infinity, not 0%.  On the next update the error
is the expected `|(total - E0) / E0| * 100`. -/
theorem c3_capture_bug :
    updateEnergyDisplayStep none 100 = (some 100, JsNum.inf) ∧
    (updateEnergyDisplayStep none 100).2 ≠ JsNum.fin 0 ∧
    updateEnergyDisplayStep (some 100) 101 = (some 100, JsNum.fin 1) := by
  refine ⟨by decide, by decide, ?_⟩
  simp only [updateEnergyDisplayStep, conservationError]
  norm_num

/-! ## Trail ring buffer theorems -/

lemma foldl_trailStep_eq (ps : List TrailPoint) :
    ∀ init : List TrailPoint, init.length ≤ MAX_TRAIL →
      ps.foldl trailStep init =
        (init ++ ps).drop (init.length + ps.length - MAX_TRAIL) := by
  induction ps with
  | nil =>
      intro init h
      simp [Nat.sub_eq_zero_of_le h]
  | cons p rest ih =>
      intro init h
      rcases Nat.lt_or_ge init.length MAX_TRAIL with hlt | hge
      · have hcond : ¬ (MAX_TRAIL < init.length + 1) := by omega
        have hstep : trailStep init p = init ++ [p] := by
          simp [trailStep, hcond]
        have hlen : (init ++ [p]).length ≤ MAX_TRAIL := by
          simp only [List.length_append, List.length_cons, List.length_nil]
          omega
        have hrec := ih (init ++ [p]) hlen
        rw [List.foldl_cons, hstep, hrec]
        simp only [List.length_append, List.length_cons, List.length_nil,
          List.append_assoc, List.singleton_append, List.cons_append,
          List.nil_append]
        exact congrArg (fun n => List.drop n (init ++ p :: rest)) (by omega)
      · have heq : init.length = MAX_TRAIL := le_antisymm h hge
        cases init with
        | nil => simp [MAX_TRAIL] at heq
        | cons a as =>
            simp only [List.length_cons] at heq
            have hcond : MAX_TRAIL < as.length + 1 + 1 := by omega
            have hstep : trailStep (a :: as) p = as ++ [p] := by
              simp [trailStep, hcond]
            have hlen : (as ++ [p]).length ≤ MAX_TRAIL := by
              simp only [List.length_append, List.length_cons, List.length_nil]
              omega
            have hrec := ih (as ++ [p]) hlen
            rw [List.foldl_cons, hstep, hrec]
            simp only [List.length_append, List.length_cons, List.length_nil,
              List.append_assoc, List.singleton_append, List.cons_append,
              List.nil_append]
            have h1 : as.length + (1 + 0) + rest.length - MAX_TRAIL =
                rest.length := by omega
            have h2 : as.length + 1 + (rest.length + 1) - MAX_TRAIL =
                rest.length + 1 := by omega
            rw [h1, h2, List.drop_succ_cons]

/-- C8: after any number of animation-frame samples, a trail buffer holds
the last at-most-300 samples in insertion order — the survivors are
exactly the suffix of the sample sequence, so the oldest entries are the
ones evicted — and its length never exceeds `MAX_TRAIL`. -/
theorem c8_trail_ring :
    ∀ ps : List TrailPoint,
      runTrail ps = ps.drop (ps.length - MAX_TRAIL) ∧
      (runTrail ps).length ≤ MAX_TRAIL := by
  intro ps
  have h := foldl_trailStep_eq ps [] (by simp [MAX_TRAIL])
  simp only [List.nil_append, List.length_nil, Nat.zero_add] at h
  refine ⟨h, ?_⟩
  rw [runTrail, h, List.length_drop]
  omega

/-! ## Observable store (value view) theorems -/

lemma getEntry_setEntry {α : Type} (fs : List (String × α)) (k g : String)
    (v : α) :
    getEntry (setEntry fs k v) g = if k = g then some v else getEntry fs g := by
  induction fs with
  | nil =>
      by_cases h : k = g <;> simp [setEntry, getEntry, h]
  | cons kv rest ih =>
      obtain ⟨k', v'⟩ := kv
      by_cases h1 : k' = k
      · subst h1
        by_cases h2 : k' = g <;> simp [setEntry, getEntry, h2]
      · by_cases h2 : k' = g
        · subst h2
          have : ¬ k = k' := fun hc => h1 hc.symm
          simp [setEntry, getEntry, h1, this]
        · simp [setEntry, getEntry, h1, h2, ih]

lemma jsSetState_not_touched (patch : StoreFields) :
    ∀ (s : StoreFields) (f : String), f ∉ patch.map Prod.fst →
      getEntry (jsSetState s patch) f = getEntry s f := by
  induction patch with
  | nil =>
      intro s f _
      rfl
  | cons kv rest ih =>
      intro s f hf
      simp only [List.map_cons, List.mem_cons] at hf
      push_neg at hf
      have hstep : jsSetState s (kv :: rest) =
          jsSetState (setEntry s kv.1 kv.2) rest := rfl
      rw [hstep, ih (setEntry s kv.1 kv.2) f hf.2, getEntry_setEntry,
        if_neg (fun hc => hf.1 hc.symm)]

lemma updateStateFields_not_touched (s : StoreFields) (keys : List String)
    (v : Val) (f : String) (hf : f ∉ keys.take 1) :
    getEntry (updateStateFields s keys v) f = getEntry s f := by
  cases keys with
  | nil => rfl
  | cons k rest =>
      simp only [List.take_succ_cons, List.take_zero, List.mem_singleton] at hf
      cases rest with
      | nil =>
          simp only [updateStateFields, assignPath]
          rw [getEntry_setEntry, if_neg (fun hc => hf hc.symm)]
      | cons k2 rest2 =>
          simp only [updateStateFields, assignPath]
          rw [getEntry_setEntry, if_neg (fun hc => hf hc.symm)]

lemma applyOp_not_touched (s : StoreFields) (op : StoreOp) (f : String)
    (hf : f ∉ touchedFields op) :
    getEntry (applyOp s op) f = getEntry s f := by
  cases op with
  | merge patch => exact jsSetState_not_touched patch s f hf
  | setPath keys v => exact updateStateFields_not_touched s keys v f hf

lemma applyOps_not_touched (ops : List StoreOp) :
    ∀ (s : StoreFields) (f : String), (∀ op ∈ ops, f ∉ touchedFields op) →
      getEntry (applyOps s ops) f = getEntry s f := by
  induction ops with
  | nil =>
      intro s f _
      rfl
  | cons op rest ih =>
      intro s f hf
      have hstep : applyOps s (op :: rest) = applyOps (applyOp s op) rest := rfl
      rw [hstep, ih (applyOp s op) f (fun o ho => hf o (List.mem_cons_of_mem _ ho)),
        applyOp_not_touched s op f (hf op (List.mem_cons_self _ _))]

/-- C6: over any finite sequence of `setState` merges and `updateState` path
writes, a top-level field untouched by the sequence reads back unchanged,
and a field touched by the sequence reads back exactly as it stood right
after the last operation that touched it (the operations after that one
preserve it). -/
theorem c6_store_sequences (s : StoreFields) (ops : List StoreOp) (f : String) :
    ((∀ op ∈ ops, f ∉ touchedFields op) →
      getEntry (applyOps s ops) f = getEntry s f) ∧
    (∀ pre op suf, ops = pre ++ op :: suf →
      (∀ o ∈ suf, f ∉ touchedFields o) →
      getEntry (applyOps s ops) f = getEntry (applyOps s (pre ++ [op])) f) := by
  constructor
  · exact applyOps_not_touched ops s f
  · intro pre op suf hsplit hsuf
    have hassoc : ops = (pre ++ [op]) ++ suf := by
      rw [hsplit, List.append_assoc, List.singleton_append]
    have hfold : applyOps s ops = applyOps (applyOps s (pre ++ [op])) suf := by
      rw [hassoc, applyOps, List.foldl_append]
      rfl
    rw [hfold, applyOps_not_touched suf (applyOps s (pre ++ [op])) f hsuf]

/-- C6 witness: a merge touching `isPaused` followed by a path write into
`parameters` leaves `showTrails` unchanged and leaves `isPaused` as the
merge set it. -/
theorem c6_store_sequences_witness :
    getEntry (applyOps
        [("isPaused", Val.bool false), ("showTrails", Val.bool true),
         ("parameters", Val.obj [("g", Val.num (981/100))])]
        [.merge [("isPaused", Val.bool true)],
         .setPath ["parameters", "g"] (Val.num 5)]) "showTrails" =
      getEntry
        [("isPaused", Val.bool false), ("showTrails", Val.bool true),
         ("parameters", Val.obj [("g", Val.num (981/100))])] "showTrails" ∧
    getEntry (applyOps
        [("isPaused", Val.bool false), ("showTrails", Val.bool true),
         ("parameters", Val.obj [("g", Val.num (981/100))])]
        [.merge [("isPaused", Val.bool true)],
         .setPath ["parameters", "g"] (Val.num 5)]) "isPaused" =
      getEntry (applyOps
        [("isPaused", Val.bool false), ("showTrails", Val.bool true),
         ("parameters", Val.obj [("g", Val.num (981/100))])]
        [.merge [("isPaused", Val.bool true)]]) "isPaused" := by
  constructor
  · refine (c6_store_sequences _ _ _).1 ?_
    intro op hop
    simp only [List.mem_cons, List.not_mem_nil, or_false] at hop
    rcases hop with h | h <;> subst h <;> simp [touchedFields]
  · refine (c6_store_sequences _ _ _).2 []
      (.merge [("isPaused", Val.bool true)])
      [.setPath ["parameters", "g"] (Val.num 5)] rfl ?_
    intro o ho
    simp only [List.mem_singleton] at ho
    subst ho
    simp [touchedFields]

/-! ## Store listener theorems -/

lemma subscribe_foldl (regs : List Listener) :
    ∀ acc : List Listener, ∃ ex : List Listener,
      regs.foldl subscribeOne acc = acc ++ ex ∧ ex.Sublist regs ∧
      (∀ l ∈ regs, l ∈ acc ++ ex) ∧ (∀ l ∈ ex, l ∉ acc) ∧
      (acc.Nodup → (acc ++ ex).Nodup) := by
  induction regs with
  | nil =>
      intro acc
      exact ⟨[], by simp, List.Sublist.refl _, by simp, by simp, by simp⟩
  | cons r rest ih =>
      intro acc
      by_cases hr : r ∈ acc
      · obtain ⟨ex, h1, h2, h3, h4, h5⟩ := ih acc
        refine ⟨ex, ?_, h2.cons r, ?_, h4, h5⟩
        · simpa [List.foldl_cons, subscribeOne, hr] using h1
        · intro l hl
          rcases List.mem_cons.mp hl with hl | hl
          · subst hl
            exact List.mem_append.mpr (Or.inl hr)
          · exact h3 l hl
      · obtain ⟨ex, h1, h2, h3, h4, h5⟩ := ih (acc ++ [r])
        refine ⟨r :: ex, ?_, h2.cons₂ r, ?_, ?_, ?_⟩
        · rw [List.foldl_cons]
          have hs : subscribeOne acc r = acc ++ [r] := by
            simp [subscribeOne, hr]
          rw [hs, h1, List.append_assoc, List.singleton_append]
        · intro l hl
          rcases List.mem_cons.mp hl with hl | hl
          · subst hl
            simp
          · have := h3 l hl
            simpa [List.append_assoc] using this
        · intro l hl
          rcases List.mem_cons.mp hl with hl | hl
          · subst hl
            exact hr
          · intro hmem
            exact h4 l hl (List.mem_append.mpr (Or.inl hmem))
        · intro hnd
          have hacc : (acc ++ [r]).Nodup := by
            simp only [List.nodup_append, List.nodup_cons, List.not_mem_nil,
              not_false_iff, List.nodup_nil, and_true, true_and]
            constructor
            · exact hnd
            · intro a ha
              simp only [List.mem_singleton]
              intro hc
              subst hc
              exact hr ha
          have := h5 hacc
          simpa [List.append_assoc] using this

lemma notifyListeners_trace (ls : List Listener) :
    (notifyListeners ls).1 = ls.map (fun l => (l.id, invokeListener l)) := by
  induction ls with
  | nil => rfl
  | cons l rest ih => simp [notifyListeners, ih]

lemma notifyListeners_logged (ls : List Listener) :
    (notifyListeners ls).2 =
      (ls.filter (fun l => l.raises)).map (fun l => l.id) := by
  induction ls with
  | nil => rfl
  | cons l rest ih =>
      cases hl : l.raises <;>
        simp [notifyListeners, invokeListener, hl, ih]

/-- C7: for any registration sequence, the subscriber set holds each
distinct listener once, in first-registration order; one notification
produces an invocation trace that is exactly the subscriber list in that
order — every listener invoked exactly once, each with its own outcome, so
a raising listener never suppresses the ones after it — and every raised
exception is logged individually. -/
theorem c7_listener_delivery (regs : List Listener) :
    (subscribeAll regs).Nodup ∧
    (subscribeAll regs).Sublist regs ∧
    (∀ l ∈ regs, l ∈ subscribeAll regs) ∧
    (notifyListeners (subscribeAll regs)).1 =
      (subscribeAll regs).map (fun l => (l.id, invokeListener l)) ∧
    (notifyListeners (subscribeAll regs)).2 =
      ((subscribeAll regs).filter (fun l => l.raises)).map (fun l => l.id) := by
  obtain ⟨ex, h1, h2, h3, _, h5⟩ := subscribe_foldl regs []
  have hsub : subscribeAll regs = ex := by
    simpa using h1
  refine ⟨?_, ?_, ?_, notifyListeners_trace _, notifyListeners_logged _⟩
  · rw [hsub]
    simpa using h5 List.nodup_nil
  · rw [hsub]
    exact h2
  · intro l hl
    rw [hsub]
    simpa using h3 l hl

/-- C7 witness: four registrations (one duplicate, one raising listener)
produce three subscribers invoked once each in order, with the raiser
logged and the listener after it still invoked. -/
theorem c7_listener_delivery_witness :
    (subscribeAll [⟨1, false⟩, ⟨2, true⟩, ⟨1, false⟩, ⟨3, false⟩]).Nodup ∧
    (subscribeAll
        [⟨1, false⟩, ⟨2, true⟩, ⟨1, false⟩, ⟨3, false⟩]).Sublist
      [⟨1, false⟩, ⟨2, true⟩, ⟨1, false⟩, ⟨3, false⟩] ∧
    (∀ l ∈ ([⟨1, false⟩, ⟨2, true⟩, ⟨1, false⟩, ⟨3, false⟩] : List Listener),
      l ∈ subscribeAll [⟨1, false⟩, ⟨2, true⟩, ⟨1, false⟩, ⟨3, false⟩]) ∧
    (notifyListeners
        (subscribeAll [⟨1, false⟩, ⟨2, true⟩, ⟨1, false⟩, ⟨3, false⟩])).1 =
      (subscribeAll [⟨1, false⟩, ⟨2, true⟩, ⟨1, false⟩, ⟨3, false⟩]).map
        (fun l => (l.id, invokeListener l)) ∧
    (notifyListeners
        (subscribeAll [⟨1, false⟩, ⟨2, true⟩, ⟨1, false⟩, ⟨3, false⟩])).2 =
      ((subscribeAll [⟨1, false⟩, ⟨2, true⟩, ⟨1, false⟩, ⟨3, false⟩]).filter
        (fun l => l.raises)).map (fun l => l.id) :=
  c7_listener_delivery [⟨1, false⟩, ⟨2, true⟩, ⟨1, false⟩, ⟨3, false⟩]

/-! ## Observable store (reference view) theorems -/

lemma getD_set_self {α : Type} :
    ∀ (l : List α) (n : Nat) (a d : α), n < l.length →
      (l.set n a).getD n d = a := by
  intro l
  induction l with
  | nil =>
      intro n a d h
      simp at h
  | cons x xs ih =>
      intro n a d h
      cases n with
      | zero => rfl
      | succ m =>
          show (x :: xs.set m a).getD (m + 1) d = a
          rw [List.getD_cons_succ]
          exact ih m a d (by simpa using h)

lemma getD_set_other {α : Type} :
    ∀ (l : List α) (n m : Nat) (a d : α), n ≠ m →
      (l.set n a).getD m d = l.getD m d := by
  intro l
  induction l with
  | nil =>
      intro n m a d _
      simp [List.set_nil]
  | cons x xs ih =>
      intro n m a d h
      cases n with
      | zero =>
          cases m with
          | zero => exact absurd rfl h
          | succ m' => rfl
      | succ n' =>
          cases m with
          | zero => rfl
          | succ m' =>
              show (x :: xs.set n' a).getD (m' + 1) d = (x :: xs).getD (m' + 1) d
              rw [List.getD_cons_succ, List.getD_cons_succ]
              exact ih n' m' a d (fun hc => h (by rw [hc]))

lemma getD_append_left {α : Type} :
    ∀ (l l' : List α) (n : Nat) (d : α), n < l.length →
      (l ++ l').getD n d = l.getD n d := by
  intro l
  induction l with
  | nil =>
      intro l' n d h
      simp at h
  | cons x xs ih =>
      intro l' n d h
      cases n with
      | zero => rfl
      | succ m =>
          simp only [List.cons_append, List.getD_cons_succ]
          exact ih l' m d (by simpa using h)

lemma getD_append_length {α : Type} :
    ∀ (l : List α) (a d : α), (l ++ [a]).getD l.length d = a := by
  intro l
  induction l with
  | nil =>
      intro a d
      rfl
  | cons x xs ih =>
      intro a d
      simpa only [List.cons_append, List.length_cons, List.getD_cons_succ]
        using ih a d

lemma refChainD_lift (h : SHeap) (m : JsObj) :
    ∀ (keys : List String) (o : Nat) (seen seen' : List Nat),
      o < h.objs.length →
      (∀ x ∈ seen', x ∈ seen ∨ h.objs.length ≤ x) →
      refChainD h seen o keys →
      refChainD ⟨h.objs ++ [m]⟩ seen' o keys := by
  intro keys
  induction keys with
  | nil =>
      intro o seen seen' _ _ _
      trivial
  | cons k rest ih =>
      cases rest with
      | nil =>
          intro o seen seen' _ _ _
          trivial
      | cons k2 rest2 =>
          intro o seen seen' ho hss hch
          obtain ⟨r, hget, hrlt, hrns, hch'⟩ := hch
          refine ⟨r, ?_, ?_, ?_, ?_⟩
          · show getEntry ((h.objs ++ [m]).getD o []) k = some (.ref r)
            rw [getD_append_left h.objs [m] o [] ho]
            exact hget
          · show r < (h.objs ++ [m]).length
            simp only [List.length_append, List.length_cons, List.length_nil]
            omega
          · intro hc
            rcases List.mem_cons.mp hc with hc | hc
            · exact hrns (hc ▸ List.mem_cons_self _ _)
            · rcases hss r hc with hin | hge
              · exact hrns (List.mem_cons_of_mem _ hin)
              · omega
          · refine ih r (o :: seen) (o :: seen') hrlt ?_ hch'
            intro x hx
            rcases List.mem_cons.mp hx with hx | hx
            · exact Or.inl (hx ▸ List.mem_cons_self _ _)
            · rcases hss x hx with hin | hge
              · exact Or.inl (List.mem_cons_of_mem _ hin)
              · exact Or.inr hge

lemma walkKeys_chain (v : HVal) :
    ∀ (keys : List String) (o : Nat) (seen : List Nat) (h : SHeap),
      keys ≠ [] → o < h.objs.length → o ∉ seen →
      refChainD h seen o keys →
      lookupPathH (walkKeys h (.obj o) keys v) o keys = some v ∧
      (∀ j ∈ seen,
        (walkKeys h (.obj o) keys v).objs.getD j [] = h.objs.getD j []) ∧
      (walkKeys h (.obj o) keys v).objs.length = h.objs.length := by
  intro keys
  induction keys with
  | nil =>
      intro o seen h hne
      exact absurd rfl hne
  | cons k rest ih =>
      intro o seen h _ ho hos hch
      cases rest with
      | nil =>
          refine ⟨?_, ?_, ?_⟩
          · show getEntry ((setF h o k v).objs.getD o []) k = some v
            show getEntry ((h.objs.set o
              (setEntry (h.objs.getD o []) k v)).getD o []) k = some v
            rw [getD_set_self _ _ _ _ ho, getEntry_setEntry, if_pos rfl]
          · intro j hj
            show (h.objs.set o (setEntry (h.objs.getD o []) k v)).getD j [] =
              h.objs.getD j []
            exact getD_set_other _ _ _ _ _ (fun hc => hos (hc ▸ hj))
          · show (h.objs.set o (setEntry (h.objs.getD o []) k v)).length =
              h.objs.length
            exact List.length_set _ _ _
      | cons k2 rest2 =>
          obtain ⟨r, hget, hrlt, hrns, hch'⟩ := hch
          have hstep : stepKey h (.obj o) k = (h, .obj r) := by
            simp [stepKey, hget]
          have hwalk : walkKeys h (.obj o) (k :: k2 :: rest2) v =
              walkKeys h (.obj r) (k2 :: rest2) v := by
            show walkKeys (stepKey h (.obj o) k).1 (stepKey h (.obj o) k).2
              (k2 :: rest2) v = _
            rw [hstep]
          obtain ⟨ih1, ih2, ih3⟩ :=
            ih r (o :: seen) h (by simp) hrlt hrns hch'
          have hpreso : (walkKeys h (.obj r) (k2 :: rest2) v).objs.getD o [] =
              h.objs.getD o [] :=
            ih2 o (List.mem_cons_self _ _)
          refine ⟨?_, ?_, ?_⟩
          · rw [hwalk]
            have hgf : getF (walkKeys h (.obj r) (k2 :: rest2) v) o k =
                some (.ref r) := by
              show getEntry
                ((walkKeys h (.obj r) (k2 :: rest2) v).objs.getD o []) k =
                some (.ref r)
              rw [hpreso]
              exact hget
            rw [lookupPathH, hgf]
            exact ih1
            exact List.cons_ne_nil _ _
          · intro j hj
            rw [hwalk]
            exact ih2 j (List.mem_cons_of_mem _ hj)
          · rw [hwalk]
            exact ih3

/-- C10: for every `updateState` call on a nested path whose containers are
genuine objects in the current state (as they are at every call site), the
previous-state object passed to subscribers shares those containers with
the new state — prev and next have identical top-level bindings — and
reading the updated path through the previous snapshot already yields the
newly assigned leaf value, so subscribers cannot recover the pre-update
nested value from `previous`. -/
theorem c10_prev_shares_nested (h : SHeap) (top : Nat) (k1 k2 : String)
    (ks : List String) (v : HVal) (htop : top < h.objs.length)
    (hch : refChainD h [] top (k1 :: k2 :: ks)) :
    (∀ k, getF (jsUpdateStateHeap h top (k1 :: k2 :: ks) v).1
        (jsUpdateStateHeap h top (k1 :: k2 :: ks) v).2 k =
      getF (jsUpdateStateHeap h top (k1 :: k2 :: ks) v).1 top k) ∧
    lookupPathH (jsUpdateStateHeap h top (k1 :: k2 :: ks) v).1 top
      (k1 :: k2 :: ks) = some v := by
  obtain ⟨r, hget, hrlt, hrns, hch'⟩ := hch
  have hgetD_c : (⟨h.objs ++ [h.objs.getD top []]⟩ : SHeap).objs.getD
      h.objs.length [] = h.objs.getD top [] :=
    getD_append_length h.objs (h.objs.getD top []) []
  have hgetD_lt : ∀ o, o < h.objs.length →
      (⟨h.objs ++ [h.objs.getD top []]⟩ : SHeap).objs.getD o [] =
        h.objs.getD o [] :=
    fun o holt => getD_append_left h.objs [h.objs.getD top []] o [] holt
  have hget1 : getF ⟨h.objs ++ [h.objs.getD top []]⟩ h.objs.length k1 =
      some (.ref r) := by
    show getEntry ((⟨h.objs ++ [h.objs.getD top []]⟩ : SHeap).objs.getD
      h.objs.length []) k1 = some (.ref r)
    rw [hgetD_c]
    exact hget
  have hstep : stepKey ⟨h.objs ++ [h.objs.getD top []]⟩ (.obj h.objs.length)
      k1 = (⟨h.objs ++ [h.objs.getD top []]⟩, .obj r) := by
    unfold stepKey
    dsimp only
    rw [hget1]
  have hwalk : walkKeys ⟨h.objs ++ [h.objs.getD top []]⟩ (.obj h.objs.length)
      (k1 :: k2 :: ks) v =
      walkKeys ⟨h.objs ++ [h.objs.getD top []]⟩ (.obj r) (k2 :: ks) v := by
    show walkKeys
      (stepKey ⟨h.objs ++ [h.objs.getD top []]⟩ (.obj h.objs.length) k1).1
      (stepKey ⟨h.objs ++ [h.objs.getD top []]⟩ (.obj h.objs.length) k1).2
      (k2 :: ks) v = _
    rw [hstep]
  have hrc : r ≠ h.objs.length := by omega
  have hrtop : r ≠ top := fun hc' => hrns (hc' ▸ List.mem_cons_self _ _)
  have hchain1 : refChainD ⟨h.objs ++ [h.objs.getD top []]⟩
      [top, h.objs.length] r (k2 :: ks) := by
    refine refChainD_lift h (h.objs.getD top []) (k2 :: ks) r [top]
      [top, h.objs.length] hrlt ?_ hch'
    intro x hx
    rcases List.mem_cons.mp hx with hx | hx
    · exact Or.inl (hx ▸ List.mem_cons_self _ _)
    · rcases List.mem_cons.mp hx with hx | hx
      · exact Or.inr (le_of_eq hx.symm)
      · simp at hx
  have hrlt1 : r < (⟨h.objs ++ [h.objs.getD top []]⟩ : SHeap).objs.length := by
    show r < (h.objs ++ [h.objs.getD top []]).length
    simp only [List.length_append, List.length_cons, List.length_nil]
    omega
  have hrnotin : r ∉ ([top, h.objs.length] : List Nat) := by
    intro hmem
    rcases List.mem_cons.mp hmem with hx | hx
    · exact hrtop hx
    · rcases List.mem_cons.mp hx with hx | hx
      · exact hrc hx
      · simp at hx
  obtain ⟨hl, hp, _⟩ :=
    walkKeys_chain v (k2 :: ks) r [top, h.objs.length]
      ⟨h.objs ++ [h.objs.getD top []]⟩ (by simp) hrlt1 hrnotin hchain1
  have hptop := hp top (List.mem_cons_self _ _)
  have hpc := hp h.objs.length
    (List.mem_cons_of_mem _ (List.mem_cons_self _ _))
  have hres : jsUpdateStateHeap h top (k1 :: k2 :: ks) v =
      (walkKeys ⟨h.objs ++ [h.objs.getD top []]⟩ (.obj r) (k2 :: ks) v,
       h.objs.length) := by
    show (walkKeys ⟨h.objs ++ [h.objs.getD top []]⟩ (.obj h.objs.length)
      (k1 :: k2 :: ks) v, h.objs.length) = _
    rw [hwalk]
  rw [hres]
  constructor
  · intro k
    show getEntry ((walkKeys ⟨h.objs ++ [h.objs.getD top []]⟩ (.obj r)
        (k2 :: ks) v).objs.getD h.objs.length []) k =
      getEntry ((walkKeys ⟨h.objs ++ [h.objs.getD top []]⟩ (.obj r)
        (k2 :: ks) v).objs.getD top []) k
    rw [hpc, hptop, hgetD_c, hgetD_lt top htop]
  · have hgf : getF (walkKeys ⟨h.objs ++ [h.objs.getD top []]⟩ (.obj r)
        (k2 :: ks) v) top k1 = some (.ref r) := by
      show getEntry ((walkKeys ⟨h.objs ++ [h.objs.getD top []]⟩ (.obj r)
        (k2 :: ks) v).objs.getD top []) k1 = some (.ref r)
      rw [hptop, hgetD_lt top htop]
      exact hget
    show lookupPathH (walkKeys ⟨h.objs ++ [h.objs.getD top []]⟩ (.obj r)
      (k2 :: ks) v) top (k1 :: k2 :: ks) = some v
    rw [lookupPathH, hgf]
    exact hl
    exact List.cons_ne_nil _ _

/-- C10 witness: a two-object state (`parameters` a shared container) with
path `parameters.g`: after the update, prev and next agree on every
top-level binding and prev already reads the new leaf value. -/
theorem c10_prev_shares_nested_witness :
    (∀ k, getF (jsUpdateStateHeap
        ⟨[[("parameters", HVal.ref 1), ("isPaused", HVal.bool false)],
          [("g", HVal.num (981/100))]]⟩ 0 ["parameters", "g"]
        (HVal.num (371/100))).1
        (jsUpdateStateHeap
        ⟨[[("parameters", HVal.ref 1), ("isPaused", HVal.bool false)],
          [("g", HVal.num (981/100))]]⟩ 0 ["parameters", "g"]
        (HVal.num (371/100))).2 k =
      getF (jsUpdateStateHeap
        ⟨[[("parameters", HVal.ref 1), ("isPaused", HVal.bool false)],
          [("g", HVal.num (981/100))]]⟩ 0 ["parameters", "g"]
        (HVal.num (371/100))).1 0 k) ∧
    lookupPathH (jsUpdateStateHeap
        ⟨[[("parameters", HVal.ref 1), ("isPaused", HVal.bool false)],
          [("g", HVal.num (981/100))]]⟩ 0 ["parameters", "g"]
        (HVal.num (371/100))).1 0 ["parameters", "g"] =
      some (HVal.num (371/100)) := by
  refine c10_prev_shares_nested _ 0 "parameters" "g" [] _ (by decide) ?_
  exact ⟨1, rfl, by decide, by decide, trivial⟩

/-! ## Connection monitor initial state theorems -/

/-- C9 (counterexample to the claim as stated): the monitor's initial state
is not connected. -/
theorem c9_counterexample : initialConnState.isConnected ≠ true := by
  decide

/-- C9 (amended): the monitor starts disconnected with a zero
consecutive-failure counter, and the first successful poll transitions it
to connected with the counter still 0. -/
theorem c9_amended :
    initialConnState = ⟨false, 0⟩ ∧
    pollStep initialConnState .ok = ⟨true, 0⟩ := by
  decide

/-! ## Command dispatcher debounce theorems -/

lemma lastVal_append (es : List (String × ℚ)) (p : String) (v : ℚ)
    (f : String) :
    lastVal (es ++ [(p, v)]) f = if p = f then some v else lastVal es f := by
  induction es with
  | nil => rfl
  | cons e rest ih =>
      obtain ⟨q, u⟩ := e
      show (match lastVal (rest ++ [(p, v)]) f with
        | some u' => some u'
        | none => if q = f then some u else none) = _
      rw [ih]
      by_cases hpf : p = f
      · rw [if_pos hpf, if_pos hpf]
      · rw [if_neg hpf, if_neg hpf]
        rfl

lemma runEdits_append (es : List (String × ℚ)) (p : String) (v : ℚ) :
    runEdits (es ++ [(p, v)]) = editField (runEdits es) p v := by
  simp [runEdits, List.foldl_append]

lemma liveIdsAux_empty (f : String) :
    ∀ (l : List TimerInfo) (n : Nat),
      (∀ j ti, l.get? j = some ti → ¬ (ti.key = f ∧ ti.status = .live)) →
      liveIdsAux n f l = [] := by
  intro l
  induction l with
  | nil =>
      intro n _
      rfl
  | cons x rest ih =>
      intro n hnone
      have hx : ¬ (x.key = f ∧ x.status = .live) := hnone 0 x rfl
      show (if x.key = f ∧ x.status = .live then [n] else []) ++
        liveIdsAux (n + 1) f rest = []
      rw [if_neg hx, List.nil_append]
      exact ih (n + 1) (fun j ti hj => hnone (j + 1) ti hj)

lemma liveIdsAux_single (f : String) :
    ∀ (l : List TimerInfo) (n i : Nat) (ti : TimerInfo),
      l.get? i = some ti → ti.key = f → ti.status = .live →
      (∀ j tj, l.get? j = some tj → tj.key = f → tj.status = .live → j = i) →
      liveIdsAux n f l = [n + i] := by
  intro l
  induction l with
  | nil =>
      intro n i ti hget
      simp [List.get?_nil] at hget
  | cons x rest ih =>
      intro n i ti hget hkey hlive huniq
      by_cases hx : x.key = f ∧ x.status = .live
      · have hi0 : 0 = i := huniq 0 x rfl hx.1 hx.2
        have hrest : liveIdsAux (n + 1) f rest = [] := by
          refine liveIdsAux_empty f rest (n + 1) ?_
          intro j tj hj hcon
          have := huniq (j + 1) tj hj hcon.1 hcon.2
          omega
        show (if x.key = f ∧ x.status = .live then [n] else []) ++
          liveIdsAux (n + 1) f rest = [n + i]
        rw [if_pos hx, hrest, ← hi0]
        simp
      · have hi : i ≠ 0 := by
          intro hi0
          subst hi0
          have hxt : x = ti := Option.some.inj (show some x = some ti from hget)
          subst hxt
          exact hx ⟨hkey, hlive⟩
        obtain ⟨i', rfl⟩ : ∃ i', i = i' + 1 :=
          ⟨i - 1, by omega⟩
        have hget' : rest.get? i' = some ti := by
          simpa [List.get?_cons_succ] using hget
        have huniq' : ∀ j tj, rest.get? j = some tj → tj.key = f →
            tj.status = .live → j = i' := by
          intro j tj hj hk hs
          have := huniq (j + 1) tj (by simpa [List.get?_cons_succ] using hj)
            hk hs
          omega
        have := ih (n + 1) i' ti hget' hkey hlive huniq'
        show (if x.key = f ∧ x.status = .live then [n] else []) ++
          liveIdsAux (n + 1) f rest = [n + (i' + 1)]
        rw [if_neg hx, List.nil_append, this]
        congr 1
        omega

lemma clearTimeoutW_eval (w : DispatchWorld) (t : Nat) (ti : TimerInfo)
    (hget : w.timers.get? (t - 1) = some ti) (hlive : ti.status = .live) :
    clearTimeoutW w t =
      { w with timers := w.timers.set (t - 1) { ti with status := .canceled } } := by
  unfold clearTimeoutW
  rw [hget]
  dsimp only
  rw [if_pos hlive]

lemma fireTimer_eval (w : DispatchWorld) (t : Nat) (ti : TimerInfo)
    (hget : w.timers.get? (t - 1) = some ti) (hlive : ti.status = .live) :
    fireTimer w t =
      ⟨w.heap ++ [setEntry (w.heap.getD ti.captured []) ti.key none],
       w.heap.length,
       w.timers.set (t - 1) { ti with status := .fired },
       w.sent ++ [(ti.key, ti.value)]⟩ := by
  unfold fireTimer
  rw [hget]
  dsimp only
  rw [if_pos hlive]

lemma editField_eval_none (w : DispatchWorld) (p : String) (v : ℚ)
    (hslot : slotId (getEntry (w.heap.getD w.store []) p) = none) :
    editField w p v =
      { w with
          heap := w.heap.set w.store (setEntry (w.heap.getD w.store []) p
            (some (w.timers.length + 1))),
          timers := w.timers ++ [⟨p, v, w.store, .live⟩] } := by
  unfold editField
  dsimp only
  rw [hslot]

lemma editField_eval_some (w : DispatchWorld) (p : String) (v : ℚ) (t : Nat)
    (hslot : slotId (getEntry (w.heap.getD w.store []) p) = some t) :
    editField w p v =
      { clearTimeoutW w t with
          heap := (clearTimeoutW w t).heap.set (clearTimeoutW w t).store
            (setEntry (w.heap.getD w.store []) p
              (some ((clearTimeoutW w t).timers.length + 1))),
          timers := (clearTimeoutW w t).timers ++
            [⟨p, v, (clearTimeoutW w t).store, .live⟩] } := by
  unfold editField
  dsimp only
  rw [hslot]

lemma editField_inv (es : List (String × ℚ)) (p : String) (v : ℚ)
    (w : DispatchWorld) (hw : EditInv es w) :
    EditInv (es ++ [(p, v)]) (editField w p v) := by
  obtain ⟨hsent, hstore, hheap, hinv⟩ := hw
  have h0len : (0 : Nat) < w.heap.length := by omega
  cases hlp : lastVal es p with
  | none =>
      have hinvp := hinv p
      rw [hlp] at hinvp
      obtain ⟨hslotp, htimp⟩ := hinvp
      have hslot : slotId (getEntry (w.heap.getD w.store []) p) = none := by
        rw [hstore, hslotp]
        rfl
      rw [editField_eval_none w p v hslot, hstore]
      refine ⟨hsent, rfl, ?_, ?_⟩
      · show (w.heap.set 0 _).length = 1
        rw [List.length_set]
        exact hheap
      · intro f
        rw [lastVal_append]
        by_cases hpf : p = f
        · subst hpf
          rw [if_pos rfl]
          refine ⟨w.timers.length + 1, ?_, by omega, ?_, ?_, ?_⟩
          · show getEntry ((w.heap.set 0 (setEntry (w.heap.getD 0 []) p
              (some (w.timers.length + 1)))).getD 0 []) p = _
            rw [getD_set_self _ _ _ _ h0len, getEntry_setEntry, if_pos rfl]
          · show w.timers.length + 1 ≤ (w.timers ++ [_]).length
            simp
          · show (w.timers ++ [(⟨p, v, 0, .live⟩ : TimerInfo)]).get?
              (w.timers.length + 1 - 1) = some ⟨p, v, 0, .live⟩
            have hidx : w.timers.length + 1 - 1 = w.timers.length := by omega
            rw [hidx]
            exact List.get?_concat_length _ _
          · intro j ti hj hk hs
            have hjlt := (List.get?_eq_some.mp hj).1
            simp only [List.length_append, List.length_cons,
              List.length_nil] at hjlt
            rcases Nat.lt_or_ge j w.timers.length with hlt | hge
            · rw [List.get?_append hlt] at hj
              exact absurd hk (htimp j ti hj)
            · omega
        · rw [if_neg hpf]
          have hinvf := hinv f
          cases hlf : lastVal es f with
          | none =>
              rw [hlf] at hinvf
              obtain ⟨hsf, htf⟩ := hinvf
              refine ⟨?_, ?_⟩
              · show getEntry ((w.heap.set 0 (setEntry (w.heap.getD 0 []) p
                  (some (w.timers.length + 1)))).getD 0 []) f = none
                rw [getD_set_self _ _ _ _ h0len, getEntry_setEntry,
                  if_neg hpf]
                exact hsf
              · intro j ti hj
                have hjlt := (List.get?_eq_some.mp hj).1
                simp only [List.length_append, List.length_cons,
                  List.length_nil] at hjlt
                rcases Nat.lt_or_ge j w.timers.length with hlt | hge
                · rw [List.get?_append hlt] at hj
                  exact htf j ti hj
                · have hje : j = w.timers.length := by omega
                  subst hje
                  rw [List.get?_concat_length] at hj
                  have hti : (⟨p, v, 0, .live⟩ : TimerInfo) = ti :=
                    Option.some.inj hj
                  rw [← hti]
                  exact hpf
          | some u =>
              rw [hlf] at hinvf
              obtain ⟨t, hsl, h1, h2, hg, hu⟩ := hinvf
              have htlt : t - 1 < w.timers.length :=
                (List.get?_eq_some.mp hg).1
              refine ⟨t, ?_, h1, ?_, ?_, ?_⟩
              · show getEntry ((w.heap.set 0 (setEntry (w.heap.getD 0 []) p
                  (some (w.timers.length + 1)))).getD 0 []) f = _
                rw [getD_set_self _ _ _ _ h0len, getEntry_setEntry,
                  if_neg hpf]
                exact hsl
              · show t ≤ (w.timers ++ [_]).length
                simp only [List.length_append, List.length_cons,
                  List.length_nil]
                omega
              · show (w.timers ++ [(⟨p, v, 0, .live⟩ : TimerInfo)]).get?
                  (t - 1) = some ⟨f, u, 0, .live⟩
                rw [List.get?_append htlt]
                exact hg
              · intro j ti hj hk hs
                have hjlt := (List.get?_eq_some.mp hj).1
                simp only [List.length_append, List.length_cons,
                  List.length_nil] at hjlt
                rcases Nat.lt_or_ge j w.timers.length with hlt | hge
                · rw [List.get?_append hlt] at hj
                  exact hu j ti hj hk hs
                · have hje : j = w.timers.length := by omega
                  subst hje
                  rw [List.get?_concat_length] at hj
                  have hti : (⟨p, v, 0, .live⟩ : TimerInfo) = ti :=
                    Option.some.inj hj
                  rw [← hti] at hk
                  exact absurd hk hpf
  | some u =>
      have hinvp := hinv p
      rw [hlp] at hinvp
      obtain ⟨t0, hsl0, h10, h20, hg0, hu0⟩ := hinvp
      have ht0lt : t0 - 1 < w.timers.length := (List.get?_eq_some.mp hg0).1
      have hslot : slotId (getEntry (w.heap.getD w.store []) p) = some t0 := by
        rw [hstore, hsl0]
        show slotId (some (some t0)) = some t0
        simp only [slotId]
        rw [if_neg (by omega : ¬ t0 = 0)]
      have hclear := clearTimeoutW_eval w t0 _ hg0 rfl
      rw [editField_eval_some w p v t0 hslot, hclear]
      dsimp only
      rw [hstore]
      refine ⟨hsent, rfl, ?_, ?_⟩
      · show (w.heap.set 0 _).length = 1
        rw [List.length_set]
        exact hheap
      · intro f
        rw [lastVal_append]
        by_cases hpf : p = f
        · subst hpf
          rw [if_pos rfl]
          refine ⟨(w.timers.set (t0 - 1)
            (⟨p, u, 0, .canceled⟩ : TimerInfo)).length + 1, ?_, by omega,
            ?_, ?_, ?_⟩
          · show getEntry ((w.heap.set 0 (setEntry (w.heap.getD 0 []) p _)).getD
              0 []) p = _
            rw [getD_set_self _ _ _ _ h0len, getEntry_setEntry, if_pos rfl]
          · simp only [List.length_append, List.length_cons, List.length_nil]
            omega
          · have hidx : (w.timers.set (t0 - 1)
                (⟨p, u, 0, .canceled⟩ : TimerInfo)).length + 1 - 1 =
                (w.timers.set (t0 - 1)
                  (⟨p, u, 0, .canceled⟩ : TimerInfo)).length := by omega
            rw [hidx]
            exact List.get?_concat_length _ _
          · intro j ti hj hk hs
            have hjlt := (List.get?_eq_some.mp hj).1
            have hWlen : (w.timers.set (t0 - 1)
                (⟨p, u, 0, .canceled⟩ : TimerInfo)).length = w.timers.length :=
              List.length_set _ _ _
            simp only [List.length_append, List.length_cons, List.length_nil,
              hWlen] at hjlt
            rcases Nat.lt_or_ge j w.timers.length with hlt | hge
            · rw [List.get?_append (by rw [hWlen]; exact hlt)] at hj
              by_cases hjt : j = t0 - 1
              · subst hjt
                rw [List.get?_set_eq_of_lt _ ht0lt] at hj
                have hti : (⟨p, u, 0, .canceled⟩ : TimerInfo) = ti :=
                  Option.some.inj hj
                rw [← hti] at hs
                simp at hs
              · rw [List.get?_set_ne _ _ (fun hc => hjt hc.symm)] at hj
                have := hu0 j ti hj hk hs
                exact absurd this hjt
            · omega
        · rw [if_neg hpf]
          have hinvf := hinv f
          cases hlf : lastVal es f with
          | none =>
              rw [hlf] at hinvf
              obtain ⟨hsf, htf⟩ := hinvf
              refine ⟨?_, ?_⟩
              · show getEntry ((w.heap.set 0 (setEntry (w.heap.getD 0 []) p
                  _)).getD 0 []) f = none
                rw [getD_set_self _ _ _ _ h0len, getEntry_setEntry, if_neg hpf]
                exact hsf
              · intro j ti hj
                have hjlt := (List.get?_eq_some.mp hj).1
                have hWlen : (w.timers.set (t0 - 1)
                    (⟨p, u, 0, .canceled⟩ : TimerInfo)).length =
                    w.timers.length := List.length_set _ _ _
                simp only [List.length_append, List.length_cons,
                  List.length_nil, hWlen] at hjlt
                rcases Nat.lt_or_ge j w.timers.length with hlt | hge
                · rw [List.get?_append (by rw [hWlen]; exact hlt)] at hj
                  by_cases hjt : j = t0 - 1
                  · subst hjt
                    rw [List.get?_set_eq_of_lt _ ht0lt] at hj
                    have hti : (⟨p, u, 0, .canceled⟩ : TimerInfo) = ti :=
                      Option.some.inj hj
                    rw [← hti]
                    exact hpf
                  · rw [List.get?_set_ne _ _ (fun hc => hjt hc.symm)] at hj
                    exact htf j ti hj
                · have hje : j = w.timers.length := by omega
                  have hj' : ((w.timers.set (t0 - 1)
                      (⟨p, u, 0, .canceled⟩ : TimerInfo)) ++
                      [(⟨p, v, 0, .live⟩ : TimerInfo)]).get?
                      ((w.timers.set (t0 - 1)
                        (⟨p, u, 0, .canceled⟩ : TimerInfo)).length) =
                      some ⟨p, v, 0, .live⟩ := List.get?_concat_length _ _
                  rw [hWlen, ← hje] at hj'
                  rw [hj] at hj'
                  have hti : ti = (⟨p, v, 0, .live⟩ : TimerInfo) :=
                    Option.some.inj hj'
                  rw [hti]
                  exact hpf
          | some x =>
              rw [hlf] at hinvf
              obtain ⟨t, hsl, h1, h2, hg, hu⟩ := hinvf
              have htlt : t - 1 < w.timers.length := (List.get?_eq_some.mp hg).1
              have hWlen : (w.timers.set (t0 - 1)
                  (⟨p, u, 0, .canceled⟩ : TimerInfo)).length = w.timers.length :=
                List.length_set _ _ _
              have htne : t0 - 1 ≠ t - 1 := by
                intro hc
                rw [← hc] at hg
                rw [hg0] at hg
                have := Option.some.inj hg
                exact hpf (congrArg TimerInfo.key this)
              refine ⟨t, ?_, h1, ?_, ?_, ?_⟩
              · show getEntry ((w.heap.set 0 (setEntry (w.heap.getD 0 []) p
                  _)).getD 0 []) f = _
                rw [getD_set_self _ _ _ _ h0len, getEntry_setEntry, if_neg hpf]
                exact hsl
              · simp only [List.length_append, List.length_cons,
                  List.length_nil, hWlen]
                omega
              · show ((w.timers.set (t0 - 1)
                  (⟨p, u, 0, .canceled⟩ : TimerInfo)) ++
                  [(⟨p, v, 0, .live⟩ : TimerInfo)]).get? (t - 1) =
                  some ⟨f, x, 0, .live⟩
                rw [List.get?_append (by rw [hWlen]; exact htlt),
                  List.get?_set_ne _ _ htne]
                exact hg
              · intro j ti hj hk hs
                have hjlt := (List.get?_eq_some.mp hj).1
                simp only [List.length_append, List.length_cons,
                  List.length_nil, hWlen] at hjlt
                rcases Nat.lt_or_ge j w.timers.length with hlt | hge
                · rw [List.get?_append (by rw [hWlen]; exact hlt)] at hj
                  by_cases hjt : j = t0 - 1
                  · subst hjt
                    rw [List.get?_set_eq_of_lt _ ht0lt] at hj
                    have hti : (⟨p, u, 0, .canceled⟩ : TimerInfo) = ti :=
                      Option.some.inj hj
                    rw [← hti] at hs
                    simp at hs
                  · rw [List.get?_set_ne _ _ (fun hc => hjt hc.symm)] at hj
                    exact hu j ti hj hk hs
                · have hje : j = w.timers.length := by omega
                  have hj' : ((w.timers.set (t0 - 1)
                      (⟨p, u, 0, .canceled⟩ : TimerInfo)) ++
                      [(⟨p, v, 0, .live⟩ : TimerInfo)]).get?
                      ((w.timers.set (t0 - 1)
                        (⟨p, u, 0, .canceled⟩ : TimerInfo)).length) =
                      some ⟨p, v, 0, .live⟩ := List.get?_concat_length _ _
                  rw [hWlen, ← hje] at hj'
                  rw [hj] at hj'
                  have hti : ti = (⟨p, v, 0, .live⟩ : TimerInfo) :=
                    Option.some.inj hj'
                  rw [hti] at hk
                  exact absurd hk hpf

lemma runEdits_inv (es : List (String × ℚ)) : EditInv es (runEdits es) := by
  induction es using List.reverseRecOn with
  | nil =>
      refine ⟨rfl, rfl, rfl, ?_⟩
      intro f
      exact ⟨rfl, fun j ti h => Option.noConfusion h⟩
  | append_singleton es e ih =>
      obtain ⟨p, v⟩ := e
      rw [runEdits_append]
      exact editField_inv es p v (runEdits es) ih

/-- C4: for any burst of edits inside one debounce window (k ≥ 1 edits to
field `p`, arbitrarily interleaved with edits to other fields), exactly
one live timer for `p` remains, and its firing issues exactly one request
carrying the value of the last edit to `p`; and when a second distinct
field `q` was edited in the same window, the two fields own two distinct
live timers whose firings issue exactly two independent requests, each
with its own field's last value. -/
theorem c4_debounce_coalescing (es : List (String × ℚ)) (p : String) (vp : ℚ)
    (hp : lastVal es p = some vp) :
    (∃ tp, liveIdsFor (runEdits es) p = [tp] ∧
      (fireTimer (runEdits es) tp).sent = [(p, vp)]) ∧
    (∀ q vq, q ≠ p → lastVal es q = some vq →
      ∃ tp tq, tp ≠ tq ∧ liveIdsFor (runEdits es) p = [tp] ∧
        liveIdsFor (runEdits es) q = [tq] ∧
        (fireTimer (fireTimer (runEdits es) tp) tq).sent =
          [(p, vp), (q, vq)]) := by
  obtain ⟨hsent, hstore, hheap, hinv⟩ := runEdits_inv es
  have hinvp := hinv p
  rw [hp] at hinvp
  obtain ⟨tp, hslp, h1p, h2p, hgp, hup⟩ := hinvp
  have hlive : liveIdsFor (runEdits es) p = [tp] := by
    have hx := liveIdsAux_single p (runEdits es).timers 1 (tp - 1)
      ⟨p, vp, 0, .live⟩ hgp rfl rfl hup
    show liveIdsAux 1 p (runEdits es).timers = [tp]
    rw [hx]
    congr 1
    omega
  have hfire := fireTimer_eval (runEdits es) tp _ hgp rfl
  constructor
  · refine ⟨tp, hlive, ?_⟩
    rw [hfire]
    show (runEdits es).sent ++ [(p, vp)] = [(p, vp)]
    rw [hsent]
    rfl
  · intro q vq hqp hq
    have hinvq := hinv q
    rw [hq] at hinvq
    obtain ⟨tq, hslq, h1q, h2q, hgq, huq⟩ := hinvq
    have hliveq : liveIdsFor (runEdits es) q = [tq] := by
      have hx := liveIdsAux_single q (runEdits es).timers 1 (tq - 1)
        ⟨q, vq, 0, .live⟩ hgq rfl rfl huq
      show liveIdsAux 1 q (runEdits es).timers = [tq]
      rw [hx]
      congr 1
      omega
    have htpq : tp ≠ tq := by
      intro hc
      rw [hc] at hgp
      rw [hgq] at hgp
      exact hqp (congrArg TimerInfo.key (Option.some.inj hgp))
    have hidxne : tp - 1 ≠ tq - 1 := by omega
    have hgq2 : (fireTimer (runEdits es) tp).timers.get? (tq - 1) =
        some ⟨q, vq, 0, .live⟩ := by
      rw [hfire]
      show ((runEdits es).timers.set (tp - 1) _).get? (tq - 1) = _
      rw [List.get?_set_ne _ _ hidxne]
      exact hgq
    have hfire2 := fireTimer_eval (fireTimer (runEdits es) tp) tq _ hgq2 rfl
    refine ⟨tp, tq, htpq, hlive, hliveq, ?_⟩
    rw [hfire2]
    show (fireTimer (runEdits es) tp).sent ++ [(q, vq)] = [(p, vp), (q, vq)]
    rw [hfire]
    show ((runEdits es).sent ++ [(p, vp)]) ++ [(q, vq)] = [(p, vp), (q, vq)]
    rw [hsent]
    rfl

/-- C4 witness: three edits in one window — `g` twice and `mass_bob_1`
once — leave one live timer per edited field; the `g` timer fires one
request with the last `g` value, and firing both timers yields the two
independent requests. -/
theorem c4_debounce_coalescing_witness :
    (∃ tp, liveIdsFor (runEdits [("g", 1), ("mass_bob_1", 7), ("g", 4)])
        "g" = [tp] ∧
      (fireTimer (runEdits [("g", 1), ("mass_bob_1", 7), ("g", 4)])
        tp).sent = [("g", 4)]) ∧
    (∀ q vq, q ≠ "g" →
      lastVal [("g", 1), ("mass_bob_1", 7), ("g", 4)] q = some vq →
      ∃ tp tq, tp ≠ tq ∧
        liveIdsFor (runEdits [("g", 1), ("mass_bob_1", 7), ("g", 4)]) "g" =
          [tp] ∧
        liveIdsFor (runEdits [("g", 1), ("mass_bob_1", 7), ("g", 4)]) q =
          [tq] ∧
        (fireTimer (fireTimer
          (runEdits [("g", 1), ("mass_bob_1", 7), ("g", 4)]) tp) tq).sent =
          [("g", 4), (q, vq)]) :=
  c4_debounce_coalescing [("g", 1), ("mass_bob_1", 7), ("g", 4)] "g" 4 rfl

/-- C5 (code bug): the interleaving edit g, edit mass_bob_1, fire the g
timer, edit g, fire the mass_bob_1 timer, edit g leaves TWO live timers
for `g` at once (handles 3 and 4) — the stale timeouts snapshot restored
by the first fired callback resurrects the dead handle 1 into the map, so
the final edit cancels the dead timer instead of handle 3 — and letting
both fire sends two requests for `g`. -/
theorem c5_two_live_timers :
    liveIdsFor (runDispatch initialWorld
      [.edit "g" 1, .edit "mass_bob_1" 2, .fire 1, .edit "g" 3, .fire 2,
       .edit "g" 4]) "g" = [3, 4] ∧
    (runDispatch initialWorld
      [.edit "g" 1, .edit "mass_bob_1" 2, .fire 1, .edit "g" 3, .fire 2,
       .edit "g" 4, .fire 3, .fire 4]).sent =
      [("g", 1), ("mass_bob_1", 2), ("g", 3), ("g", 4)] := by
  constructor
  · rfl
  · rfl

end DoublePendulum
